import Mathlib

/-!
Verification development for the genetic-algorithm optimizer crate
`bbte_optim_tzim1773_genetic` (source file `src/lib.rs`).

The Rust code is embedded shallowly:

* `f64` fitness values and the probabilities `pc`, `pm` are modelled as `ℚ`.
* The global `thread_rng` is modelled as an explicit finite trace `RState`:
  `nats` feeds the `gen_range(0, l)` draws (a raw entropy value `h` stands for
  the drawn index `h % l`, which ranges over exactly the values the uniform
  draw can produce), and `probs` feeds the `gen_range(0.0, 1.0)` draws.
  A probability trace is *valid* (`ValidProbs`) when its entries lie in
  `[0, 1)`, as the real generator guarantees.
* Fallible behaviour is modelled in `Except GAErr`: `GAErr.indexPanic` stands
  for a Rust index-out-of-bounds panic, and `GAErr.randExhausted` means the
  finite random trace ran out, i.e. the computation demands more random draws
  than the trace supplies (so a computation that needs unboundedly many draws
  returns `randExhausted` on every finite trace).
-/

/-- Error outcomes of the embedded code. -/
inductive GAErr where
  /-- A Rust index-out-of-bounds panic, e.g. evaluating `u[0]` on an empty
  `Vec`. -/
  | indexPanic : GAErr
  /-- Modelled from the spec: the spec's `EmptyInputError`.  The Rust code
  defines no such error and never produces it; the constructor exists so the
  spec's error-handling claims can be stated against what the code does. -/
  | emptyInput : GAErr
  /-- The finite random trace was exhausted. -/
  | randExhausted : GAErr
  deriving DecidableEq, Repr

/-- The state of the random generator `thread_rng`, as an explicit trace. -/
structure RState where
  nats : List Nat
  probs : List ℚ
  deriving DecidableEq, Repr

/-- A probability trace is valid when every entry is in `[0, 1)`, which is
what `rng.gen_range(0.0, 1.0)` guarantees for the actual generator. -/
def ValidProbs (qs : List ℚ) : Prop := ∀ q ∈ qs, 0 ≤ q ∧ q < 1

instance (qs : List ℚ) : Decidable (ValidProbs qs) :=
  inferInstanceAs (Decidable (∀ q ∈ qs, 0 ≤ q ∧ q < 1))

/-- The `Genetic<'a, T>` configuration struct of `lib.rs`. -/
structure Genetic (α : Type) where
  population : Nat
  max_generation : Nat
  pc : ℚ
  pm : ℚ
  get_random_agent : Unit → α
  f_fitness : α → ℚ
  f_mutate : α → α
  f_offspring : α → α → α

variable {α : Type}

/-- `Genetic::get_population`: `vec![0; self.population]` mapped through
`self.get_random_agent`, i.e. `population` calls of the agent generator. -/
def get_population (cfg : Genetic α) : List α :=
  (List.replicate cfg.population 0).map fun _ => cfg.get_random_agent ()

/-- The rejection loop of `generate_parents`:
`let mut y = rng.gen_range(0, l); while y == x { y = rng.gen_range(0, l) }`.
Each raw draw `h` yields the index `h % l`; the loop keeps drawing until the
index differs from `x`, and fails if the finite trace runs out first. -/
def pickPartnerLoop (l x : Nat) : List Nat → Except GAErr (Nat × List Nat)
  | [] => .error .randExhausted
  | h :: t => if h % l = x then pickPartnerLoop l x t else .ok (h % l, t)

/-- One position of `generate_parents`: draw `x = rng.gen_range(0, l)`, then
run the rejection loop for the partner index `y`. -/
def drawPair (l : Nat) : List Nat → Except GAErr (Nat × List Nat)
  | [] => .error .randExhausted
  | h :: t => pickPartnerLoop l (h % l) t

/-- The partner indices drawn by `generate_parents` for `k` successive
positions (the Rust code maps over `xg.iter()`, so `k = xg.len()`). -/
def partnerIdxs (l : Nat) : Nat → List Nat → Except GAErr (List Nat × List Nat)
  | 0, ns => .ok ([], ns)
  | k + 1, ns =>
    match drawPair l ns with
    | .error e => .error e
    | .ok (y, ns2) =>
      match partnerIdxs l k ns2 with
      | .error e => .error e
      | .ok (ys, ns3) => .ok (y :: ys, ns3)

/-- `Genetic::generate_parents`: for each position of `xg` draw a partner
index (`partnerIdxs`), then zip `xg` with the partner agents `&xg[y]`.
Since every drawn `y` satisfies `y < xg.length`, the `getD` default (the
agent at the position itself) is never used; it only makes the lookup
total, mirroring that Rust's `xg[y]` cannot go out of bounds here. -/
def generate_parents (xg : List α) (st : RState) :
    Except GAErr (List (α × α) × RState) :=
  match partnerIdxs xg.length xg.length st.nats with
  | .error e => .error e
  | .ok (ys, ns) =>
    .ok ((xg.zip ys).map (fun p => (p.1, xg.getD p.2 p.1)), ⟨ns, st.probs⟩)

/-- The loop of `Genetic::get_best`: scan `l` (the elements from position `i`
on), keeping the index `best_i` and fitness `f_best` of the running best; an
element displaces the incumbent only when its fitness is strictly greater. -/
def getBestAux (fit : α → ℚ) : List α → Nat → Nat → ℚ → Nat
  | [], _, best_i, _ => best_i
  | x :: xs, i, best_i, f_best =>
    if fit x > f_best then getBestAux fit xs (i + 1) i (fit x)
    else getBestAux fit xs (i + 1) best_i f_best

/-- `Genetic::get_best`: `best_i = 0`, `f_best = fitness(u[0])`, then the
scan of the whole vector.  On an empty vector the Rust code evaluates
`u[0]`, an index-out-of-bounds panic, modelled by `GAErr.indexPanic`. -/
def get_best (fit : α → ℚ) (u : List α) : Except GAErr Nat :=
  match u with
  | [] => .error .indexPanic
  | u0 :: rest => .ok (getBestAux fit (u0 :: rest) 0 0 (fit u0))

/-- `Genetic::mutate`: each member draws one value in `[0,1)`; it is kept
unchanged when the draw is `>= pm` and replaced by `f_mutate` otherwise. -/
def mutate (pm : ℚ) (f : α → α) : List α → List ℚ → Except GAErr (List α × List ℚ)
  | [], qs => .ok ([], qs)
  | _ :: _, [] => .error .randExhausted
  | x :: xs, q :: qt =>
    match mutate pm f xs qt with
    | .error e => .error e
    | .ok (rest, qr) => .ok ((if q ≥ pm then x else f x) :: rest, qr)

/-- `Genetic::selection`: `population` rounds of `get_best` followed by
`Vec::remove` of the chosen index, accumulating the removed agents. -/
def selection (fit : α → ℚ) : Nat → List α → Except GAErr (List α)
  | 0, _ => .ok []
  | n + 1, xg =>
    match get_best fit xg with
    | .error e => .error e
    | .ok bi =>
      match xg[bi]? with
      | none => .error .indexPanic
      | some b =>
        match selection fit n (xg.eraseIdx bi) with
        | .error e => .error e
        | .ok rest => .ok (b :: rest)

/-- The crossover stage inside `Genetic::run`: starting from the clone of the
current generation, for each parent pair draw one value in `[0,1)` and append
the offspring when the draw is `< pc`. -/
def crossoverStage (pc : ℚ) (off : α → α → α) :
    List α → List (α × α) → List ℚ → Except GAErr (List α × List ℚ)
  | pool, [], qs => .ok (pool, qs)
  | _, _ :: _, [] => .error .randExhausted
  | pool, p :: ps, q :: qt =>
    crossoverStage pc off (if q < pc then pool ++ [off p.1 p.2] else pool) ps qt

/-- One iteration of the generational loop of `Genetic::run`:
parent pairing, crossover stage, mutation stage, truncation selection. -/
def stepGen (cfg : Genetic α) (xg : List α) (st : RState) :
    Except GAErr (List α × RState) :=
  match generate_parents xg st with
  | .error e => .error e
  | .ok (parents, st1) =>
    match crossoverStage cfg.pc cfg.f_offspring xg parents st1.probs with
    | .error e => .error e
    | .ok (pool, qs1) =>
      match mutate cfg.pm cfg.f_mutate pool qs1 with
      | .error e => .error e
      | .ok (mutated, qs2) =>
        match selection cfg.f_fitness cfg.population mutated with
        | .error e => .error e
        | .ok next => .ok (next, ⟨st1.nats, qs2⟩)

/-- The `for _g in 0..self.max_generation` loop of `Genetic::run`. -/
def runLoop (cfg : Genetic α) : Nat → List α → RState → Except GAErr (List α × RState)
  | 0, xg, st => .ok (xg, st)
  | g + 1, xg, st =>
    match stepGen cfg xg st with
    | .error e => .error e
    | .ok (next, st2) => runLoop cfg g next st2

/-- `Genetic::run`: initialize with `get_population`, run the generational
loop `max_generation` times, return the final generation. -/
def run (cfg : Genetic α) (st : RState) : Except GAErr (List α) :=
  match runLoop cfg cfg.max_generation (get_population cfg) st with
  | .error e => .error e
  | .ok (xg, _) => .ok xg

deriving instance DecidableEq for Except

/-- A minimal well-formed configuration (used to instantiate theorems at
concrete inputs): two agents, zero generations. -/
def cfgW : Genetic ℤ where
  population := 2
  max_generation := 0
  pc := 0
  pm := 0
  get_random_agent := fun _ => 0
  f_fitness := fun a => (a : ℚ)
  f_mutate := fun a => a
  f_offspring := fun a _ => a

/-- The configuration of the `correct_crossover` test of `lib.rs`:
`population = 2`, `max_generation = 1`, `pc = 1`, `pm = 1`, constant agent
`121`, `mutate(a) = a + 2`, `crossover(a, b) = a + b`, and
`fitness(a) = 10 - |a - 244|` (the test's integer agents with the fitness
computed into the rational numbers that model `f64`). -/
def cfgC5 : Genetic ℤ where
  population := 2
  max_generation := 1
  pc := 1
  pm := 1
  get_random_agent := fun _ => 121
  f_fitness := fun a => ((10 - |a - 244| : ℤ) : ℚ)
  f_mutate := fun a => a + 2
  f_offspring := fun a b => a + b

/-- A configuration with `population = 0` and out-of-range probabilities,
which the spec says must be rejected with a `ConfigurationError`. -/
def cfg0 : Genetic ℤ where
  population := 0
  max_generation := 3
  pc := 2
  pm := -1
  get_random_agent := fun _ => 0
  f_fitness := fun a => (a : ℚ)
  f_mutate := fun a => a
  f_offspring := fun a _ => a

/-- A configuration with `population = 1` and at least one generation, on
which the partner rejection loop can never find `y ≠ x`. -/
def cfg1 : Genetic ℤ where
  population := 1
  max_generation := 1
  pc := 0
  pm := 0
  get_random_agent := fun _ => 5
  f_fitness := fun a => (a : ℚ)
  f_mutate := fun a => a
  f_offspring := fun a _ => a

/-- Loop invariant of `get_best`: scanning `l = u.drop i` with incumbent index
`bi` (whose fitness `fb` is maximal on the prefix before `i`, and strictly
above every position before `bi`) yields the index of a maximal-fitness
element such that every strictly earlier position has strictly smaller
fitness. -/
theorem getBestAux_go (fit : α → ℚ) (u : List α) :
    ∀ (l : List α) (i bi : Nat) (fb : ℚ) (b : α),
      l = u.drop i → u[bi]? = some b → fb = fit b →
      (∀ (j : Nat) (a : α), j < i → u[j]? = some a → fit a ≤ fb) →
      (∀ (j : Nat) (a : α), j < bi → u[j]? = some a → fit a < fb) →
      ∃ rb, u[getBestAux fit l i bi fb]? = some rb ∧
        (∀ (j : Nat) (a : α), u[j]? = some a → fit a ≤ fit rb) ∧
        (∀ (j : Nat) (a : α), j < getBestAux fit l i bi fb → u[j]? = some a → fit a < fit rb) := by
  intro l
  induction l with
  | nil =>
    intro i bi fb b hdrop hb hfb hle hlt
    have hlen : u.length ≤ i := List.drop_eq_nil_iff.mp hdrop.symm
    refine ⟨b, ?_, ?_, ?_⟩
    · simpa [getBestAux] using hb
    · intro j a hj
      have hjlen : j < u.length := by
        by_contra hc
        rw [List.getElem?_eq_none (Nat.le_of_not_lt hc)] at hj
        exact Option.noConfusion hj
      have := hle j a (by omega) hj
      simpa [getBestAux, hfb] using this
    · intro j a hj hja
      have := hlt j a (by simpa [getBestAux] using hj) hja
      simpa [getBestAux, hfb] using this
  | cons x xs ih =>
    intro i bi fb b hdrop hb hfb hle hlt
    have hi : i < u.length := by
      by_contra hc
      rw [List.drop_eq_nil_iff.mpr (Nat.le_of_not_lt hc)] at hdrop
      exact List.noConfusion hdrop
    have hx : u[i]? = some x := by
      have h0 : (List.drop i u)[0]? = u[i + 0]? := List.getElem?_drop u i 0
      rw [← hdrop] at h0
      simpa using h0.symm
    have hxs : xs = u.drop (i + 1) := by
      have h1 : List.drop 1 (List.drop i u) = List.drop (i + 1) u := List.drop_drop 1 i u
      rw [← hdrop] at h1
      simpa using h1
    simp only [getBestAux]
    split_ifs with hgt
    · refine ih (i + 1) i (fit x) x hxs hx rfl ?_ ?_
      · intro j a hj hja
        rcases Nat.lt_succ_iff_lt_or_eq.mp hj with hj' | hj'
        · exact le_of_lt (lt_of_le_of_lt (hle j a hj' hja) (by simpa [hfb] using hgt))
        · subst hj'
          rw [hx] at hja
          rw [Option.some.injEq] at hja
          subst hja
          exact le_refl _
      · intro j a hj hja
        exact lt_of_le_of_lt (hle j a hj hja) (by simpa [hfb] using hgt)
    · refine ih (i + 1) bi fb b hxs hb hfb ?_ hlt
      intro j a hj hja
      rcases Nat.lt_succ_iff_lt_or_eq.mp hj with hj' | hj'
      · exact hle j a hj' hja
      · subst hj'
        rw [hx] at hja
        rw [Option.some.injEq] at hja
        subst hja
        exact le_of_not_lt hgt

/-- On a non-empty vector, `get_best` succeeds and returns the index of the
first maximal-fitness element. -/
theorem get_best_ok (fit : α → ℚ) (u : List α) (hne : u ≠ []) :
    ∃ i b, get_best fit u = .ok i ∧ u[i]? = some b ∧
      (∀ (j : Nat) (a : α), u[j]? = some a → fit a ≤ fit b) ∧
      (∀ (j : Nat) (a : α), j < i → u[j]? = some a → fit a < fit b) := by
  match u with
  | [] => exact absurd rfl hne
  | u0 :: rest =>
    obtain ⟨rb, h1, h2, h3⟩ :=
      getBestAux_go fit (u0 :: rest) (u0 :: rest) 0 0 (fit u0) u0 rfl (by simp) rfl
        (fun j a hj _ => absurd hj (Nat.not_lt_zero j))
        (fun j a hj _ => absurd hj (Nat.not_lt_zero j))
    exact ⟨getBestAux fit (u0 :: rest) 0 0 (fit u0), rb, rfl, h1, h2, h3⟩

/-- C4: for every non-empty sequence `u`, `get_best` returns a valid index
`i` into `u` whose element has fitness at least that of every element, and
every position strictly before `i` has strictly smaller fitness (so `i` is
the first occurrence of the maximum). -/
theorem get_best_first_max_spec (fit : α → ℚ) (u : List α) (hne : u ≠ []) :
    ∃ i b, get_best fit u = .ok i ∧ i < u.length ∧ u[i]? = some b ∧
      (∀ (j : Nat) (a : α), u[j]? = some a → fit a ≤ fit b) ∧
      (∀ (j : Nat) (a : α), j < i → u[j]? = some a → fit a < fit b) := by
  obtain ⟨i, b, h1, h2, h3, h4⟩ := get_best_ok fit u hne
  exact ⟨i, b, h1, (List.getElem?_eq_some.mp h2).1, h2, h3, h4⟩

/-- Witness for C4 at `u = [1, 3, 3, 2]` with identity fitness: the returned
index is 1, the first of the two maximal elements. -/
theorem get_best_first_max_spec_witness :
    ∃ i b, get_best (fun a : ℚ => a) [1, 3, 3, 2] = .ok i ∧
      i < ([(1:ℚ), 3, 3, 2]).length ∧ ([(1:ℚ), 3, 3, 2])[i]? = some b ∧
      (∀ (j : Nat) (a : ℚ), ([(1:ℚ), 3, 3, 2])[j]? = some a → a ≤ b) ∧
      (∀ (j : Nat) (a : ℚ), j < i → ([(1:ℚ), 3, 3, 2])[j]? = some a → a < b) :=
  get_best_first_max_spec (fun a : ℚ => a) [1, 3, 3, 2] (by decide)

/-- C8 counterexample: on the zero-length sequence the code evaluates `u[0]`
and dies with an index-out-of-bounds panic; it does not produce the spec's
`EmptyInputError`. -/
theorem get_best_empty_counterexample :
    get_best (fun a : ℚ => a) [] = .error .indexPanic ∧
    get_best (fun a : ℚ => a) [] ≠ .error .emptyInput := by
  exact ⟨rfl, by decide⟩

/-- C8 amended: `get_best` on a zero-length sequence fails by accessing the
non-existent first element `u[0]` (an index-out-of-bounds panic); it raises
no `EmptyInputError` — the code defines no such error. -/
theorem get_best_empty_panics (fit : α → ℚ) :
    get_best fit ([] : List α) = .error .indexPanic ∧
    get_best fit ([] : List α) ≠ .error .emptyInput :=
  ⟨rfl, fun h => GAErr.noConfusion (Except.error.inj h)⟩

/-- The rejection loop, when it succeeds, returns an index that differs from
the excluded index `x` and lies in `[0, l)` (whenever `l > 0`). -/
theorem pickPartnerLoop_ok (l x : Nat) :
    ∀ (ns : List Nat) (y : Nat) (rest : List Nat),
      pickPartnerLoop l x ns = .ok (y, rest) → y ≠ x ∧ (0 < l → y < l) := by
  intro ns
  induction ns with
  | nil =>
    intro y rest h
    exact absurd h (by simp [pickPartnerLoop])
  | cons hd t ih =>
    intro y rest hok
    rw [pickPartnerLoop] at hok
    split_ifs at hok with heq
    · exact ih y rest hok
    · obtain ⟨rfl, rfl⟩ : hd % l = y ∧ t = rest := by simpa using hok
      exact ⟨heq, fun hl => Nat.mod_lt hd hl⟩

/-- One position's draw: the partner index differs from the freshly drawn
index `hd % l` (the head of the trace), not from the position. -/
theorem drawPair_ok (l : Nat) (ns : List Nat) (y : Nat) (rest : List Nat)
    (hok : drawPair l ns = .ok (y, rest)) :
    (0 < l → y < l) ∧ ∃ hd t, ns = hd :: t ∧ y ≠ hd % l := by
  match ns with
  | [] => exact absurd hok (by simp [drawPair])
  | hd :: t =>
    rw [drawPair] at hok
    obtain ⟨hne, hlt⟩ := pickPartnerLoop_ok l (hd % l) t y rest hok
    exact ⟨hlt, hd, t, rfl, hne⟩

/-- `partnerIdxs` returns one index per position, each in range. -/
theorem partnerIdxs_ok (l : Nat) :
    ∀ (k : Nat) (ns ys ns' : List Nat),
      partnerIdxs l k ns = .ok (ys, ns') →
      ys.length = k ∧ (0 < l → ∀ y ∈ ys, y < l) := by
  intro k
  induction k with
  | zero =>
    intro ns ys ns' h
    obtain ⟨rfl, rfl⟩ : ([] : List Nat) = ys ∧ ns = ns' := by simpa [partnerIdxs] using h
    exact ⟨rfl, fun _ y hy => absurd hy (List.not_mem_nil y)⟩
  | succ k ih =>
    intro ns ys ns' h
    rw [partnerIdxs] at h
    split at h
    · exact absurd h (by simp)
    · next y ns2 hdp =>
      split at h
      · exact absurd h (by simp)
      · next ys0 ns3 hpi =>
        obtain ⟨rfl, rfl⟩ : y :: ys0 = ys ∧ ns3 = ns' := by simpa using h
        obtain ⟨hlen, hbound⟩ := ih ns2 ys0 ns3 hpi
        obtain ⟨hylt, -⟩ := drawPair_ok l ns y ns2 hdp
        refine ⟨by simp [hlen], fun hl z hz => ?_⟩
        rcases List.mem_cons.mp hz with rfl | hz'
        · exact hylt hl
        · exact hbound hl z hz'

/-- The element looked up by a valid partner index is a member of the
generation. -/
theorem getD_mem_of_lt (xg : List α) (y : Nat) (a : α) (hy : y < xg.length) :
    xg.getD y a ∈ xg := by
  rw [List.getD_eq_getElem xg a hy]
  exact List.getElem_mem hy

/-- Structure of the pair list built by `generate_parents`: the first
component of each pair is the agent at that position, the second is some
member of the generation (the partner looked up at the drawn index). -/
theorem zipPartners_forall (xg : List α) :
    ∀ (ml : List α) (ys : List Nat),
      ml.length = ys.length → (∀ y ∈ ys, y < xg.length) →
      List.Forall₂ (fun a p => p.1 = a ∧ p.2 ∈ xg) ml
        ((ml.zip ys).map fun p => (p.1, xg.getD p.2 p.1)) := by
  intro ml
  induction ml with
  | nil =>
    intro ys _ _
    simp
  | cons a ml ih =>
    intro ys hlen hbound
    match ys with
    | [] => simp at hlen
    | y :: ys =>
      simp only [List.zip_cons_cons, List.map_cons]
      refine List.Forall₂.cons ⟨rfl, ?_⟩
        (ih ys (by simpa using hlen) (fun z hz => hbound z (List.mem_cons_of_mem y hz)))
      exact getD_mem_of_lt xg y a (hbound y (List.mem_cons_self y ys))

/-- Inversion of a successful `generate_parents`: the pairs are position
agents paired with members of the generation, and the probability trace is
untouched (only `nats` draws are consumed). -/
theorem generate_parents_ok (xg : List α) (st : RState) (ps : List (α × α))
    (st1 : RState) (h : generate_parents xg st = .ok (ps, st1)) :
    List.Forall₂ (fun a p => p.1 = a ∧ p.2 ∈ xg) xg ps ∧ st1.probs = st.probs := by
  rw [generate_parents] at h
  split at h
  · exact absurd h (by simp)
  · next ys ns hpi =>
    obtain ⟨hlen, hbound⟩ := partnerIdxs_ok xg.length xg.length st.nats ys ns hpi
    have hb : ∀ y ∈ ys, y < xg.length := by
      match xg, hlen with
      | [], hlen =>
        have : ys = [] := List.length_eq_zero.mp hlen
        subst this
        intro y hy
        exact absurd hy (List.not_mem_nil y)
      | x :: xs, hlen => exact hbound (by simp)
    obtain ⟨rfl, rfl⟩ :
        (xg.zip ys).map (fun p => (p.1, xg.getD p.2 p.1)) = ps ∧
          (⟨ns, st.probs⟩ : RState) = st1 := by simpa using h
    exact ⟨zipPartners_forall xg xg ys hlen.symm hb, rfl⟩

/-- How many pairs `generate_parents` yields: one per position. -/
theorem generate_parents_ok_length (xg : List α) (st : RState) (ps : List (α × α))
    (st1 : RState) (h : generate_parents xg st = .ok (ps, st1)) :
    ps.length = xg.length :=
  ((generate_parents_ok xg st ps st1 h).1.length_eq).symm

/-- C2 counterexample: on generation `[10, 20]` with random trace
`nats = [1, 0, 0, 1]` the code draws the fresh index 1 at position 0 and then
accepts partner index 0 (which equals the position), and symmetrically at
position 1 — both agents are paired with themselves. -/
theorem generate_parents_self_pairing :
    generate_parents [(10:ℚ), 20] ⟨[1, 0, 0, 1], []⟩ =
      .ok ([(10, 10), (20, 20)], ⟨[], []⟩) := by decide

/-- C2 amended: for every agent at position `x`, the code first draws a fresh
random index `r` from `[0, N)` (unrelated to `x`), then draws the partner
index `y` from `[0, N)` redrawing while `y = r`; the ordered pair is (agent
at the position, agent at `y`).  Since `y` is only constrained to avoid the
fresh draw `r`, it may equal the position, so an agent can be paired with
itself. -/
theorem generate_parents_partner_spec (xg : List α) (st : RState)
    (ps : List (α × α)) (st1 : RState)
    (hp : generate_parents xg st = .ok (ps, st1)) :
    List.Forall₂ (fun a p => p.1 = a ∧ p.2 ∈ xg) xg ps ∧
    (∀ (l hd : Nat) (t : List Nat) (y : Nat) (rest : List Nat),
      0 < l → drawPair l (hd :: t) = .ok (y, rest) → y < l ∧ y ≠ hd % l) := by
  refine ⟨(generate_parents_ok xg st ps st1 hp).1, ?_⟩
  intro l hd t y rest hl hdp
  obtain ⟨hlt, hd2, t2, hcons, hne⟩ := drawPair_ok l (hd :: t) y rest hdp
  obtain ⟨rfl, rfl⟩ : hd = hd2 ∧ t = t2 := by simpa using hcons
  exact ⟨hlt hl, hne⟩

/-- Witness for C2's amended statement at generation `[10, 20]` with trace
`nats = [0, 1, 1, 0]`, which pairs position 0 with agent 20 and position 1
with agent 10. -/
theorem generate_parents_partner_spec_witness :
    List.Forall₂ (fun a p => p.1 = a ∧ p.2 ∈ [(10:ℚ), 20]) [(10:ℚ), 20]
      [(10, 20), (20, 10)] :=
  (generate_parents_partner_spec [(10:ℚ), 20] ⟨[0, 1, 1, 0], []⟩
    [(10, 20), (20, 10)] ⟨[], []⟩ (by decide)).1

/-- Removing the element at a valid index is, up to permutation, the same as
moving it to the front: `Vec::remove` returns `xs[bi]` and leaves the rest. -/
theorem perm_cons_eraseIdx (xs : List α) (bi : Nat) (b : α) (hb : xs[bi]? = some b) :
    List.Perm xs (b :: xs.eraseIdx bi) := by
  obtain ⟨hlt, hget⟩ := List.getElem?_eq_some.mp hb
  have h2 : xs.take bi ++ (b :: xs.drop (bi + 1)) = xs := by
    rw [← hget, List.getElem_cons_drop xs bi hlt, List.take_append_drop]
  have hmid := @List.perm_middle α b (xs.take bi) (xs.drop (bi + 1))
  rw [h2] at hmid
  rw [List.eraseIdx_eq_take_drop_succ]
  exact hmid

/-- Multiset version of `perm_cons_eraseIdx`. -/
theorem coe_cons_eraseIdx (xs : List α) (bi : Nat) (b : α) (hb : xs[bi]? = some b) :
    (xs : Multiset α) = b ::ₘ ((xs.eraseIdx bi : List α) : Multiset α) := by
  rw [Multiset.cons_coe, Multiset.coe_eq_coe]
  exact perm_cons_eraseIdx xs bi b hb

/-- A successful `selection` returns exactly the requested number of
agents. -/
theorem selection_ok_length (fit : α → ℚ) :
    ∀ (n : Nat) (xs res : List α), selection fit n xs = .ok res → res.length = n := by
  intro n
  induction n with
  | zero =>
    intro xs res h
    obtain rfl : ([] : List α) = res := by simpa [selection] using h
    rfl
  | succ n ih =>
    intro xs res h
    rw [selection] at h
    split at h
    · exact absurd h (by simp)
    · split at h
      · exact absurd h (by simp)
      · split at h
        · exact absurd h (by simp)
        · next rest hsel =>
          obtain rfl : _ = res := by simpa using h
          simp [ih _ _ hsel]

/-- The main content of the selection stage: when the pool is large enough,
`selection` succeeds and returns agents in weakly descending fitness order,
drawn (with multiplicity) from the pool, and every agent left unselected has
fitness at most that of every selected agent. -/
theorem selection_ok [DecidableEq α] (fit : α → ℚ) :
    ∀ (n : Nat) (xs : List α), n ≤ xs.length →
      ∃ res, selection fit n xs = .ok res ∧ res.length = n ∧
        List.Pairwise (fun a c => fit c ≤ fit a) res ∧
        (res : Multiset α) ≤ (xs : Multiset α) ∧
        ∀ y ∈ (xs : Multiset α) - (res : Multiset α), ∀ a ∈ res, fit y ≤ fit a := by
  intro n
  induction n with
  | zero =>
    intro xs _
    refine ⟨[], rfl, rfl, List.Pairwise.nil, ?_, ?_⟩
    · simp only [Multiset.coe_nil]
      exact Multiset.zero_le (xs : Multiset α)
    · intro y _ a ha
      exact absurd ha (List.not_mem_nil a)
  | succ n ih =>
    intro xs hn
    have hne : xs ≠ [] := by
      intro h
      subst h
      simp at hn
    obtain ⟨bi, b, hgb, hb, hmax, -⟩ := get_best_ok fit xs hne
    have hblt : bi < xs.length := (List.getElem?_eq_some.mp hb).1
    have herlen : (xs.eraseIdx bi).length = xs.length - 1 := by
      rw [List.length_eraseIdx]
      simp [hblt]
    have hn' : n ≤ (xs.eraseIdx bi).length := by omega
    obtain ⟨rest, hsel, hrlen, hpw, hle, hdiff⟩ := ih (xs.eraseIdx bi) hn'
    have hcoe : (xs : Multiset α) = b ::ₘ ((xs.eraseIdx bi : List α) : Multiset α) :=
      coe_cons_eraseIdx xs bi b hb
    have hmem_er : ∀ a : α, a ∈ xs.eraseIdx bi → a ∈ xs := fun a ha =>
      List.Sublist.mem ha (List.eraseIdx_sublist xs bi)
    have hfit_xs : ∀ a ∈ xs, fit a ≤ fit b := by
      intro a ha
      obtain ⟨j, hj⟩ := List.mem_iff_getElem?.mp ha
      exact hmax j a hj
    have hrest_le : ∀ c ∈ rest, fit c ≤ fit b := by
      intro c hc
      have hc2 : c ∈ ((xs.eraseIdx bi : List α) : Multiset α) :=
        Multiset.mem_of_le hle (by simpa using hc)
      exact hfit_xs c (hmem_er c (by simpa using hc2))
    refine ⟨b :: rest, ?_, ?_, ?_, ?_, ?_⟩
    · simp only [selection, hgb, hb, hsel]
    · simp [hrlen]
    · exact List.Pairwise.cons hrest_le hpw
    · rw [hcoe, ← Multiset.cons_coe]
      exact Multiset.cons_le_cons b hle
    · intro y hy a ha
      rw [hcoe, ← Multiset.cons_coe, Multiset.sub_cons, Multiset.erase_cons_head] at hy
      rcases List.mem_cons.mp ha with rfl | ha'
      · have hy2 : y ∈ ((xs.eraseIdx bi : List α) : Multiset α) :=
          Multiset.mem_of_le (Multiset.sub_le_self _ _) hy
        exact hfit_xs y (hmem_er y (by simpa using hy2))
      · exact hdiff y hy a ha'

/-- Each round of `selection` removes the first maximal-fitness agent of the
current pool: the removed agent's fitness dominates the pool and positions
strictly before the removed index have strictly smaller fitness. -/
theorem selection_step (fit : α → ℚ) (k : Nat) (xs : List α) (b : α) (rest : List α)
    (h : selection fit (k + 1) xs = .ok (b :: rest)) :
    ∃ bi, get_best fit xs = .ok bi ∧ xs[bi]? = some b ∧
      (∀ (j : Nat) (a : α), xs[j]? = some a → fit a ≤ fit b) ∧
      (∀ (j : Nat) (a : α), j < bi → xs[j]? = some a → fit a < fit b) ∧
      selection fit k (xs.eraseIdx bi) = .ok rest := by
  have hne : xs ≠ [] := by
    intro hx
    subst hx
    rw [selection] at h
    simp [get_best] at h
  obtain ⟨bi, b2, hgb, hb2, hmax, hstr⟩ := get_best_ok fit xs hne
  rw [selection] at h
  rw [hgb] at h
  simp only [] at h
  rw [hb2] at h
  simp only [] at h
  split at h
  · exact absurd h (by simp)
  · next rest2 hsel =>
    obtain ⟨rfl, rfl⟩ : b2 = b ∧ rest2 = rest := by simpa using h
    exact ⟨bi, hgb, hb2, hmax, hstr, hsel⟩

/-- C3: given a pool of length at least `n`, `selection` succeeds and returns
exactly `n` agents in weakly descending fitness order, drawn from the pool,
with every unselected agent no fitter than any selected one; moreover each
round removes the agent at the first index achieving the pool's maximal
fitness (a strictly-greater comparison never displaces an earlier
equal-fitness incumbent). -/
theorem selection_truncation_spec [DecidableEq α] (fit : α → ℚ) (n : Nat)
    (xs : List α) (hn : n ≤ xs.length) :
    (∃ res, selection fit n xs = .ok res ∧ res.length = n ∧
      List.Pairwise (fun a c => fit c ≤ fit a) res ∧
      (res : Multiset α) ≤ (xs : Multiset α) ∧
      ∀ y ∈ (xs : Multiset α) - (res : Multiset α), ∀ a ∈ res, fit y ≤ fit a) ∧
    (∀ (k : Nat) (ys : List α) (b : α) (rest : List α),
      selection fit (k + 1) ys = .ok (b :: rest) →
      ∃ bi, get_best fit ys = .ok bi ∧ ys[bi]? = some b ∧
        (∀ (j : Nat) (a : α), ys[j]? = some a → fit a ≤ fit b) ∧
        (∀ (j : Nat) (a : α), j < bi → ys[j]? = some a → fit a < fit b) ∧
        selection fit k (ys.eraseIdx bi) = .ok rest) :=
  ⟨selection_ok fit n xs hn, fun k ys b rest h => selection_step fit k ys b rest h⟩

/-- Witness for C3 at pool `[1, 3, 2]` with identity fitness and `n = 2`. -/
theorem selection_truncation_spec_witness :
    ∃ res, selection (fun a : ℚ => a) 2 [1, 3, 2] = .ok res ∧ res.length = 2 ∧
      List.Pairwise (fun a c : ℚ => c ≤ a) res ∧
      (res : Multiset ℚ) ≤ (([1, 3, 2] : List ℚ) : Multiset ℚ) ∧
      ∀ y ∈ (([1, 3, 2] : List ℚ) : Multiset ℚ) - (res : Multiset ℚ),
        ∀ a ∈ res, y ≤ a :=
  (selection_truncation_spec (fun a : ℚ => a) 2 [1, 3, 2] (by decide)).1

/-- Initialization produces exactly `population` agents. -/
theorem get_population_length (cfg : Genetic α) :
    (get_population cfg).length = cfg.population := by
  simp [get_population]

/-- A successful generation step always hands the next generation back with
exactly `population` members (selection truncates to that size). -/
theorem stepGen_ok_length (cfg : Genetic α) (xg : List α) (st : RState)
    (nxt : List α) (st2 : RState) (h : stepGen cfg xg st = .ok (nxt, st2)) :
    nxt.length = cfg.population := by
  rw [stepGen] at h
  split at h
  · exact absurd h (by simp)
  · split at h
    · exact absurd h (by simp)
    · split at h
      · exact absurd h (by simp)
      · split at h
        · exact absurd h (by simp)
        · next nx hsel =>
          cases h
          exact selection_ok_length cfg.f_fitness cfg.population _ _ hsel

/-- The generational loop preserves the population size. -/
theorem runLoop_ok_length (cfg : Genetic α) :
    ∀ (g : Nat) (xg out : List α) (st1 st2 : RState),
      xg.length = cfg.population →
      runLoop cfg g xg st1 = .ok (out, st2) → out.length = cfg.population := by
  intro g
  induction g with
  | zero =>
    intro xg out st1 st2 hlen h
    obtain ⟨rfl, rfl⟩ : xg = out ∧ st1 = st2 := by simpa [runLoop] using h
    exact hlen
  | succ g ih =>
    intro xg out st1 st2 hlen h
    rw [runLoop] at h
    split at h
    · exact absurd h (by simp)
    · next next2 st3 hstep =>
      exact ih next2 out st3 st2 (stepGen_ok_length cfg xg st1 next2 st3 hstep) h

/-- C1: for every valid configuration, whenever `run` returns a final
population it has length exactly `population`; initialization produces a
generation of length `population`, and the loop keeps that length at the end
of every generation. -/
theorem run_length_spec (cfg : Genetic α) (st : RState) (res : List α)
    (_hN : 0 < cfg.population) (_hpc0 : 0 ≤ cfg.pc) (_hpc1 : cfg.pc ≤ 1)
    (_hpm0 : 0 ≤ cfg.pm) (_hpm1 : cfg.pm ≤ 1)
    (hrun : run cfg st = .ok res) :
    res.length = cfg.population ∧
    (get_population cfg).length = cfg.population ∧
    ∀ (g : Nat) (xg out : List α) (st1 st2 : RState),
      xg.length = cfg.population →
      runLoop cfg g xg st1 = .ok (out, st2) → out.length = cfg.population := by
  refine ⟨?_, get_population_length cfg,
    fun g xg out st1 st2 => runLoop_ok_length cfg g xg out st1 st2⟩
  rw [run] at hrun
  split at hrun
  · exact absurd hrun (by simp)
  · next xg2 stx heq =>
    have hx : xg2 = res := by simpa using hrun
    subst hx
    exact runLoop_ok_length cfg cfg.max_generation (get_population cfg) xg2 st stx
      (get_population_length cfg) heq

/-- Witness for C1 at `cfgW` (two agents, zero generations) on the empty
trace: the returned population `[0, 0]` has length `cfgW.population = 2`. -/
theorem run_length_spec_witness : ([(0:ℤ), 0]).length = cfgW.population :=
  (run_length_spec cfgW ⟨[], []⟩ [0, 0] (by decide) (by decide) (by decide)
    (by decide) (by decide) (by decide)).1

/-- The crossover stage only appends: the working population is the clone of
the current generation followed by at most one offspring per pair. -/
theorem crossoverStage_extends (pc : ℚ) (off : α → α → α) :
    ∀ (ps : List (α × α)) (pool : List α) (qs : List ℚ) (out : List α) (qs' : List ℚ),
      crossoverStage pc off pool ps qs = .ok (out, qs') →
      ∃ extra, out = pool ++ extra ∧ extra.length ≤ ps.length := by
  intro ps
  induction ps with
  | nil =>
    intro pool qs out qs' h
    obtain ⟨rfl, rfl⟩ : pool = out ∧ qs = qs' := by simpa [crossoverStage] using h
    exact ⟨[], by simp⟩
  | cons p ps ih =>
    intro pool qs out qs' h
    match qs with
    | [] => exact absurd h (by simp [crossoverStage])
    | q :: qt =>
      rw [crossoverStage] at h
      by_cases hq : q < pc
      · rw [if_pos hq] at h
        obtain ⟨extra, he, hlen⟩ := ih (pool ++ [off p.1 p.2]) qt out qs' h
        refine ⟨off p.1 p.2 :: extra, ?_, by simpa using Nat.succ_le_succ hlen⟩
        rw [he, List.append_assoc]
        rfl
      · rw [if_neg hq] at h
        obtain ⟨extra, he, hlen⟩ := ih pool qt out qs' h
        exact ⟨extra, he, by simp; omega⟩

/-- The mutation stage preserves the length of the working population. -/
theorem mutate_ok_length (pm : ℚ) (f : α → α) :
    ∀ (xs : List α) (qs : List ℚ) (out : List α) (qs' : List ℚ),
      mutate pm f xs qs = .ok (out, qs') → out.length = xs.length := by
  intro xs
  induction xs with
  | nil =>
    intro qs out qs' h
    obtain ⟨rfl, rfl⟩ : ([] : List α) = out ∧ qs = qs' := by simpa [mutate] using h
    rfl
  | cons x xs ih =>
    intro qs out qs' h
    match qs with
    | [] => exact absurd h (by simp [mutate])
    | q :: qt =>
      rw [mutate] at h
      split at h
      · exact absurd h (by simp)
      · next rest qr heq =>
        obtain ⟨rfl, rfl⟩ : (if q ≥ pm then x else f x) :: rest = out ∧ qr = qs' := by
          simpa using h
        simp [ih qt rest qr heq]

/-- C6: within one generation, after a successful crossover stage the working
population is the current generation (of length `population`) extended by at
most one offspring per pair, so its length lies between `population` and
`2 * population`; mutation keeps that length, and selection truncates it back
to exactly `population`. -/
theorem crossover_stage_bounds (cfg : Genetic α) (xg : List α) (st st1 : RState)
    (parents : List (α × α)) (pool : List α) (qs1 : List ℚ)
    (mutated : List α) (qs2 : List ℚ) (nxt : List α)
    (hlen : xg.length = cfg.population)
    (hp : generate_parents xg st = .ok (parents, st1))
    (hc : crossoverStage cfg.pc cfg.f_offspring xg parents st1.probs = .ok (pool, qs1))
    (hm : mutate cfg.pm cfg.f_mutate pool qs1 = .ok (mutated, qs2))
    (hs : selection cfg.f_fitness cfg.population mutated = .ok nxt) :
    (∃ extra, pool = xg ++ extra) ∧
    cfg.population ≤ pool.length ∧ pool.length ≤ 2 * cfg.population ∧
    mutated.length = pool.length ∧ nxt.length = cfg.population := by
  obtain ⟨extra, he, hex⟩ :=
    crossoverStage_extends cfg.pc cfg.f_offspring parents xg st1.probs pool qs1 hc
  have hpar : parents.length = xg.length := generate_parents_ok_length xg st parents st1 hp
  have hplen : pool.length = xg.length + extra.length := by
    rw [he]
    simp
  exact ⟨⟨extra, he⟩, by omega, by omega,
    mutate_ok_length cfg.pm cfg.f_mutate pool qs1 mutated qs2 hm,
    selection_ok_length cfg.f_fitness cfg.population mutated nxt hs⟩

/-- Witness for C6 on the concrete `correct_crossover` scenario: the working
population `[121, 121, 242, 242]` extends `[121, 121]`, has length between 2
and 4, mutation keeps length 4, and selection returns 2 agents. -/
theorem crossover_stage_bounds_witness :
    (∃ extra, [(121:ℤ), 121, 242, 242] = [121, 121] ++ extra) ∧
    cfgC5.population ≤ ([(121:ℤ), 121, 242, 242]).length ∧
    ([(121:ℤ), 121, 242, 242]).length ≤ 2 * cfgC5.population ∧
    ([(123:ℤ), 123, 244, 244]).length = ([(121:ℤ), 121, 242, 242]).length ∧
    ([(244:ℤ), 244]).length = cfgC5.population :=
  crossover_stage_bounds cfgC5 [121, 121] ⟨[1, 0, 0, 1], [0, 0, 0, 0, 0, 0]⟩
    ⟨[], [0, 0, 0, 0, 0, 0]⟩ [(121, 121), (121, 121)] [121, 121, 242, 242]
    [0, 0, 0, 0] [123, 123, 244, 244] [] [244, 244]
    (by decide) (by decide) (by decide) (by decide) (by decide)

/-- C7: with `max_generation = 0` the loop body never runs and `run` returns
exactly the generation-0 population built by `get_population` (the
`population`-fold application of the agent generator), untouched. -/
theorem zero_generation_identity (cfg : Genetic α) (st : RState)
    (hmg : cfg.max_generation = 0) :
    run cfg st = .ok (get_population cfg) ∧
    (get_population cfg).length = cfg.population := by
  refine ⟨?_, get_population_length cfg⟩
  rw [run, hmg]
  rfl

/-- Witness for C7 at `cfgW` on the empty trace. -/
theorem zero_generation_identity_witness :
    run cfgW ⟨[], []⟩ = .ok (get_population cfgW) ∧
    (get_population cfgW).length = cfgW.population :=
  zero_generation_identity cfgW ⟨[], []⟩ rfl

/-- With an empty generation (the `population = 0` case) a generation step
consumes nothing and succeeds with the empty generation, provided
`population = 0` so that selection asks for zero agents. -/
theorem stepGen_nil (cfg : Genetic α) (st : RState) (h0 : cfg.population = 0) :
    stepGen cfg [] st = .ok ([], st) := by
  have hsel : selection cfg.f_fitness cfg.population ([] : List α) = .ok [] := by
    rw [h0]
    rfl
  show (match selection cfg.f_fitness cfg.population ([] : List α) with
        | Except.error e => (Except.error e : Except GAErr (List α × RState))
        | Except.ok nxt => Except.ok (nxt, ⟨st.nats, st.probs⟩))
      = Except.ok ([], st)
  rw [hsel]

/-- The generational loop on the empty generation is the identity. -/
theorem runLoop_nil (cfg : Genetic α) (h0 : cfg.population = 0) :
    ∀ (g : Nat) (st : RState), runLoop cfg g [] st = .ok ([], st) := by
  intro g
  induction g with
  | zero => intro st; rfl
  | succ g ih =>
    intro st
    rw [runLoop, stepGen_nil cfg st h0]
    exact ih st

/-- C9 amended: the code performs no configuration validation at all.  With
`population = 0`, `run` returns the empty population (an ordinary result, not
an error) on every trace and for every `max_generation`; out-of-range `pc`
and `pm` are likewise accepted silently. -/
theorem run_no_config_validation (cfg : Genetic α) (st : RState)
    (h0 : cfg.population = 0) : run cfg st = .ok [] := by
  have hpop : get_population cfg = [] := by
    simp [get_population, h0]
  rw [run, hpop, runLoop_nil cfg h0]

/-- C9 counterexample: `cfg0` has `population = 0`, `pc = 2` and `pm = -1`,
all of which the spec says must be rejected with a `ConfigurationError`
before any generation runs; the code instead runs to completion and returns
a result. -/
theorem run_population_zero_counterexample :
    run cfg0 ⟨[1], [1/2]⟩ = .ok [] := by decide

/-- Witness for C9's amended statement at `cfg0` on the empty trace. -/
theorem run_no_config_validation_witness : run cfg0 ⟨[], []⟩ = .ok [] :=
  run_no_config_validation cfg0 ⟨[], []⟩ rfl

/-- With a single-element range the rejection loop can never succeed: every
draw reduces to index 0, which is the excluded value. -/
theorem pickPartnerLoop_one :
    ∀ (t : List Nat), pickPartnerLoop 1 0 t = .error .randExhausted := by
  intro t
  induction t with
  | nil => rfl
  | cons hd t ih => simpa [pickPartnerLoop, Nat.mod_one] using ih

/-- One position's draw in a singleton generation always exhausts the
trace. -/
theorem drawPair_one : ∀ (ns : List Nat), drawPair 1 ns = .error .randExhausted := by
  intro ns
  match ns with
  | [] => rfl
  | hd :: t =>
    rw [drawPair, Nat.mod_one]
    exact pickPartnerLoop_one t

/-- Partner sampling for any position count in a singleton generation always
exhausts the trace. -/
theorem partnerIdxs_one (k : Nat) (ns : List Nat) :
    partnerIdxs 1 (k + 1) ns = .error .randExhausted := by
  rw [partnerIdxs, drawPair_one]

/-- Parent pairing of a singleton generation always exhausts the trace. -/
theorem generate_parents_one (xg : List α) (hx : xg.length = 1) (st : RState) :
    generate_parents xg st = .error .randExhausted := by
  have h1 : partnerIdxs 1 1 st.nats = .error .randExhausted := partnerIdxs_one 0 st.nats
  rw [generate_parents, hx, h1]

/-- A generation step on a singleton generation always exhausts the trace. -/
theorem stepGen_one (cfg : Genetic α) (xg : List α) (hx : xg.length = 1) (st : RState) :
    stepGen cfg xg st = .error .randExhausted := by
  rw [stepGen, generate_parents_one xg hx st]

/-- C10: with `population = 1` and at least one generation, `run` never
terminates: for every finite random trace the partner rejection loop consumes
the whole trace without ever finding `y ≠ x` (both are always 0), so `run`
reports the trace exhausted no matter how long the trace is. -/
theorem population_one_diverges (cfg : Genetic α) (st : RState)
    (h1 : cfg.population = 1) (hg : 1 ≤ cfg.max_generation) :
    run cfg st = .error .randExhausted := by
  obtain ⟨g, hgm⟩ : ∃ g, cfg.max_generation = g + 1 :=
    ⟨cfg.max_generation - 1, by omega⟩
  have hlen : (get_population cfg).length = 1 := by
    rw [get_population_length, h1]
  rw [run, hgm, runLoop, stepGen_one cfg (get_population cfg) hlen st]

/-- Witness for C10 at `cfg1` (population 1, one generation) on a trace with
three draws available. -/
theorem population_one_diverges_witness :
    run cfg1 ⟨[7, 7, 7], []⟩ = .error .randExhausted :=
  population_one_diverges cfg1 ⟨[7, 7, 7], []⟩ rfl (by decide)

/-- With every drawn probability strictly below `pc` (as happens for any
valid trace when `pc = 1`), the crossover stage appends exactly one offspring
per pair, in order. -/
theorem crossoverStage_all_cross (pc : ℚ) (off : α → α → α) :
    ∀ (ps : List (α × α)) (pool : List α) (qs : List ℚ) (out : List α) (qs' : List ℚ),
      (∀ q ∈ qs, q < pc) →
      crossoverStage pc off pool ps qs = .ok (out, qs') →
      out = pool ++ ps.map (fun p => off p.1 p.2) ∧ qs' = qs.drop ps.length := by
  intro ps
  induction ps with
  | nil =>
    intro pool qs out qs' _ h
    obtain ⟨rfl, rfl⟩ : pool = out ∧ qs = qs' := by simpa [crossoverStage] using h
    simp
  | cons p ps ih =>
    intro pool qs out qs' hv h
    match qs with
    | [] => exact absurd h (by simp [crossoverStage])
    | q :: qt =>
      rw [crossoverStage, if_pos (hv q (List.mem_cons_self q qt))] at h
      obtain ⟨h1, h2⟩ := ih (pool ++ [off p.1 p.2]) qt out qs'
        (fun r hr => hv r (List.mem_cons_of_mem q hr)) h
      constructor
      · rw [h1, List.append_assoc]
        rfl
      · simpa using h2

/-- With every drawn probability strictly below `pm` (as happens for any
valid trace when `pm = 1`), the mutation stage mutates every member. -/
theorem mutate_all (pm : ℚ) (f : α → α) :
    ∀ (xs : List α) (qs : List ℚ) (out : List α) (qs' : List ℚ),
      (∀ q ∈ qs, q < pm) →
      mutate pm f xs qs = .ok (out, qs') →
      out = xs.map f ∧ qs' = qs.drop xs.length := by
  intro xs
  induction xs with
  | nil =>
    intro qs out qs' _ h
    obtain ⟨rfl, rfl⟩ : ([] : List α) = out ∧ qs = qs' := by simpa [mutate] using h
    simp
  | cons x xs ih =>
    intro qs out qs' hv h
    match qs with
    | [] => exact absurd h (by simp [mutate])
    | q :: qt =>
      rw [mutate] at h
      split at h
      · exact absurd h (by simp)
      · next rest qr heq =>
        obtain ⟨h1, h2⟩ := ih qt rest qr (fun r hr => hv r (List.mem_cons_of_mem q hr)) heq
        have hnot : ¬ q ≥ pm := not_le.mpr (hv q (List.mem_cons_self q qt))
        obtain ⟨rfl, rfl⟩ : (if q ≥ pm then x else f x) :: rest = out ∧ qr = qs' := by
          simpa using h
        constructor
        · rw [if_neg hnot, h1]
          rfl
        · simpa using h2

/-- In a two-element generation whose agents are both `a`, parent pairing can
only produce the pair `(a, a)` twice. -/
theorem forall₂_pair_const (a : α) (ps : List (α × α))
    (h : List.Forall₂ (fun c p => p.1 = c ∧ p.2 ∈ [a, a]) [a, a] ps) :
    ps = [(a, a), (a, a)] := by
  match ps, h with
  | [p, q], .cons hp (.cons hq .nil) =>
    obtain ⟨hp1, hp2⟩ := hp
    obtain ⟨hq1, hq2⟩ := hq
    have hp2' : p.2 = a := by
      rcases List.mem_cons.mp hp2 with h' | h'
      · exact h'
      · simpa using h'
    have hq2' : q.2 = a := by
      rcases List.mem_cons.mp hq2 with h' | h'
      · exact h'
      · simpa using h'
    have hpe : p = (a, a) := Prod.ext_iff.mpr ⟨hp1, hp2'⟩
    have hqe : q = (a, a) := Prod.ext_iff.mpr ⟨hq1, hq2'⟩
    rw [hpe, hqe]

/-- C5: the `correct_crossover` scenario of the crate's tests — population 2,
one generation, `pc = pm = 1`, constant agent 121, `mutate(a) = a + 2`,
`crossover(a, b) = a + b`, `fitness(a) = 10 - |a - 244|`.  On every valid
random trace on which `run` terminates, the final population is `[244, 244]`
and `get_best` indexes an agent of value 244. -/
theorem full_crossover_scenario (st : RState) (res : List ℤ)
    (hv : ValidProbs st.probs) (hrun : run cfgC5 st = .ok res) :
    res = [244, 244] ∧ get_best cfgC5.f_fitness res = .ok 0 ∧
    res.getD 0 0 = 244 := by
  have hq1 : ∀ q ∈ st.probs, q < (1 : ℚ) := fun q hq => (hv q hq).2
  rw [run] at hrun
  split at hrun
  · exact absurd hrun (by simp)
  · next xg2 st2 heq =>
    have hxres : xg2 = res := by simpa using hrun
    have heq1 : runLoop cfgC5 (0 + 1) [121, 121] st = .ok (xg2, st2) := heq
    rw [runLoop] at heq1
    split at heq1
    · exact absurd heq1 (by simp)
    · next nx1 st3 hstep =>
      have hnx1 : nx1 = xg2 := by
        have h' : Except.ok (nx1, st3) = Except.ok (xg2, st2) := heq1
        obtain ⟨h1, -⟩ : nx1 = xg2 ∧ st3 = st2 := by simpa using h'
        exact h1
      rw [stepGen] at hstep
      split at hstep
      · exact absurd hstep (by simp)
      · next parents st1 hgp =>
        split at hstep
        · exact absurd hstep (by simp)
        · next pool qs1 hcs =>
          split at hstep
          · exact absurd hstep (by simp)
          · next mutated qs2 hmu =>
            split at hstep
            · exact absurd hstep (by simp)
            · next nx2 hsl =>
              have hnx2 : nx2 = nx1 := by
                obtain ⟨h1, -⟩ : nx2 = nx1 ∧ (⟨st1.nats, qs2⟩ : RState) = st3 := by
                  simpa using hstep
                exact h1
              obtain ⟨hfa, hprobs⟩ := generate_parents_ok [121, 121] st parents st1 hgp
              have hpar : parents = [(121, 121), (121, 121)] :=
                forall₂_pair_const 121 parents hfa
              rw [hpar, hprobs] at hcs
              have hvq : ∀ q ∈ st.probs, q < cfgC5.pc := fun q hq => hq1 q hq
              obtain ⟨hpool, hqs1⟩ := crossoverStage_all_cross cfgC5.pc cfgC5.f_offspring
                [(121, 121), (121, 121)] [121, 121] st.probs pool qs1 hvq hcs
              have hpool2 : pool = [121, 121, 242, 242] := by
                rw [hpool]
                rfl
              have hv1 : ∀ q ∈ qs1, q < cfgC5.pm := by
                intro q hq
                rw [hqs1] at hq
                exact hq1 q (List.drop_subset _ _ hq)
              rw [hpool2] at hmu
              obtain ⟨hmut, -⟩ := mutate_all cfgC5.pm cfgC5.f_mutate
                [121, 121, 242, 242] qs1 mutated qs2 hv1 hmu
              have hmut2 : mutated = [123, 123, 244, 244] := by
                rw [hmut]
                rfl
              rw [hmut2] at hsl
              have hsel : selection cfgC5.f_fitness cfgC5.population
                  [(123:ℤ), 123, 244, 244] = .ok [244, 244] := by decide
              rw [hsel] at hsl
              have hnxv : [(244:ℤ), 244] = nx2 := by simpa using hsl
              have hres : res = [244, 244] := by
                rw [← hxres, ← hnx1, ← hnx2, ← hnxv]
              refine ⟨hres, ?_, ?_⟩
              · rw [hres]
                decide
              · rw [hres]
                rfl

/-- Witness for C5 on the concrete trace `nats = [1, 0, 0, 1]`,
`probs = [0, 0, 0, 0, 0, 0]`. -/
theorem full_crossover_scenario_witness :
    [(244:ℤ), 244] = [244, 244] ∧
    get_best cfgC5.f_fitness [(244:ℤ), 244] = .ok 0 ∧
    ([(244:ℤ), 244]).getD 0 0 = 244 :=
  full_crossover_scenario ⟨[1, 0, 0, 1], [0, 0, 0, 0, 0, 0]⟩ [244, 244]
    (by decide) (by decide)

/-- Witness for C8's amended statement at a concrete fitness function. -/
theorem get_best_empty_panics_witness :
    get_best (fun a : ℤ => (a : ℚ)) ([] : List ℤ) = .error .indexPanic ∧
    get_best (fun a : ℤ => (a : ℚ)) ([] : List ℤ) ≠ .error .emptyInput :=
  get_best_empty_panics (fun a : ℤ => (a : ℚ))
